import Mathlib

/-!
Verification development for the defi-compare-backend repository.

The repository normalizes DeFi position data from two providers into one
canonical model and reconciles the two datasets.  This file gives a shallow
embedding of the parts of the code the spec claims are about:

* the canonical data model (`src/types.ts`),
* the tiered-matching reconciliation engine `compareDataSources`
  (`src/types.ts`, second service variant, lines 290-491),
* the duplicate-key merging `createPositionMap` and the map-based
  `comparePositions` of `CompareService`
  (`src/defi/services/compare.service.ts`),
* the static chain translation tables of `src/services/onekey.ts`,
* the failure behaviour of the per-network fetchers
  (`fetchNetworkPositions` in `src/services/onekey.ts` and
  `ZerionService.fetchPositions` in compare.service.ts), with the
  HTTP/JSON transport abstracted into an explicit outcome type.

USD amounts (JavaScript `number`s) are modelled as rationals; all
arithmetic the claims mention is exact field arithmetic.
-/

set_option maxRecDepth 100000

namespace DefiCompare

/-- Token record of the canonical model (src/types.ts `Token`). -/
structure Token where
  symbol : String
  name : String
  address : String
  decimals : Nat
  price : Option ℚ := none
  logo : Option String := none
deriving DecidableEq

/-- TokenBalance record (src/types.ts `TokenBalance`). -/
structure TokenBalance where
  token : Token
  balance : String
  balanceFormatted : ℚ
  balanceUSD : ℚ
deriving DecidableEq

/-- Protocol record (src/types.ts `Protocol`). -/
structure Protocol where
  id : String
  name : String
  chain : String
  logo : Option String := none
deriving DecidableEq

/-- The closed position-type enumeration (src/types.ts `PositionType`). -/
inductive PositionType
  | lending
  | borrowing
  | liquidity
  | staking
  | farming
  | wallet
  | other
deriving DecidableEq

/-- The string a `PositionType` value prints as in a JS template literal. -/
def PositionType.toStr : PositionType → String
  | .lending => "lending"
  | .borrowing => "borrowing"
  | .liquidity => "liquidity"
  | .staking => "staking"
  | .farming => "farming"
  | .wallet => "wallet"
  | .other => "other"

/-- Position record (src/types.ts `Position`); `metadata` is a free-form
string map never consumed by the reconciliation logic. -/
structure Position where
  id : String
  protocol : Protocol
  type : PositionType
  tokens : List TokenBalance
  totalValueUSD : ℚ
  apy : Option ℚ := none
  healthFactor : Option ℚ := none
  metadata : List (String × String) := []
deriving DecidableEq

/-- AddressDefiData record (src/types.ts `AddressDefiData`). -/
structure AddressDefiData where
  address : String
  totalValueUSD : ℚ
  positions : List Position
  chains : List String
  lastUpdated : String
  source : String
deriving DecidableEq

/-- Diff classification (src/types.ts `DiffType`). -/
inductive DiffType
  | added
  | removed
  | changed
  | unchanged
deriving DecidableEq

/-- PositionDiff record (src/types.ts `PositionDiff`). -/
structure PositionDiff where
  protocol : String
  chain : String
  type : PositionType
  diffType : DiffType
  positionA : Option Position := none
  positionB : Option Position := none
  valueDiffUSD : Option ℚ := none
  valueDiffPercent : Option ℚ := none
deriving DecidableEq

/-- CompareSummary record (src/types.ts `CompareSummary`). -/
structure CompareSummary where
  totalValueDiffUSD : ℚ
  totalValueDiffPercent : ℚ
  positionsOnlyInA : Nat
  positionsOnlyInB : Nat
  commonPositions : Nat
  changedPositions : Nat
deriving DecidableEq

/-- DataSourceCompareResult record (src/types.ts `DataSourceCompareResult`). -/
structure DataSourceCompareResult where
  addressA : AddressDefiData
  addressB : AddressDefiData
  summary : CompareSummary
  positionDiffs : List PositionDiff
deriving DecidableEq

/-- Lexicographic sort of strings: JS `Array.prototype.sort()` default
comparison on the (ASCII) lower-cased token symbols. -/
def sortStrings (l : List String) : List String :=
  l.insertionSort (· ≤ ·)

/-- Exact match key (`getPositionMatchKey`, src/types.ts lines 290-298):
protocol id + chain + position type + sorted token symbols, joined by
separators and lower-cased. -/
def getPositionMatchKey (position : Position) : String :=
  let tokenSymbols :=
    String.intercalate "+"
      (sortStrings (position.tokens.map (fun t => t.token.symbol.toLower)))
  String.toLower
    (position.protocol.id ++ "-" ++ position.protocol.chain ++ "-"
      ++ position.type.toStr ++ "-" ++ tokenSymbols)

/-- Loose match key (`getLooseMatchKey`, src/types.ts lines 300-306):
protocol id + chain + primary token symbol.  The JS `|| 'unknown'`
fallback also fires when the first symbol lower-cases to the empty
string, since `''` is falsy. -/
def getLooseMatchKey (position : Position) : String :=
  let mainToken :=
    match position.tokens with
    | [] => "unknown"
    | t :: _ =>
      let s := t.token.symbol.toLower
      if s = "" then "unknown" else s
  String.toLower
    (position.protocol.id ++ "-" ++ position.protocol.chain ++ "-" ++ mainToken)

/-- The exact-key index built by `sourceBByExactKey.set` in a forEach loop:
a JS Map where a later position with the same key overwrites an earlier
one, so lookup returns the last position carrying the key. -/
def buildExactIndex (positions : List Position) (key : String) : Option Position :=
  (positions.filter (fun p => decide (getPositionMatchKey p = key))).getLast?

/-- The loose-key index (`sourceBByLooseKey`): a JS Map from loose key to
the list of positions pushed under that key, in input order. -/
def buildLooseIndex (positions : List Position) (key : String) : List Position :=
  positions.filter (fun p => decide (getLooseMatchKey p = key))

/-- The percent-difference formula shared by the pair branch and the
summary (src/types.ts lines 407-409 and 461-463). -/
def percentDiffOf (a b : ℚ) : ℚ :=
  if 0 < a then (b - a) / a * 100
  else if 0 < b then 100 else 0

/-- The diff emitted for a matched pair (src/types.ts lines 405-437):
value delta, percent delta, and the 1% materiality classification. -/
def pairDiff (posA posB : Position) : PositionDiff :=
  let valueDiff := posB.totalValueUSD - posA.totalValueUSD
  let percentDiff := percentDiffOf posA.totalValueUSD posB.totalValueUSD
  { protocol := posA.protocol.name
    chain := posA.protocol.chain
    type := posA.type
    diffType := if 1 < |percentDiff| then DiffType.changed else DiffType.unchanged
    positionA := some posA
    positionB := some posB
    valueDiffUSD := some valueDiff
    valueDiffPercent := some percentDiff }

/-- The diff emitted for an unmatched A position (src/types.ts lines 389-400). -/
def removedDiff (posA : Position) : PositionDiff :=
  { protocol := posA.protocol.name
    chain := posA.protocol.chain
    type := posA.type
    diffType := DiffType.removed
    positionA := some posA
    valueDiffUSD := some (-posA.totalValueUSD)
    valueDiffPercent := some (-100) }

/-- The diff emitted for an unmatched B position (src/types.ts lines 445-456). -/
def addedDiff (posB : Position) : PositionDiff :=
  { protocol := posB.protocol.name
    chain := posB.protocol.chain
    type := posB.type
    diffType := DiffType.added
    positionB := some posB
    valueDiffUSD := some posB.totalValueUSD
    valueDiffPercent := some 100 }

/-- The candidate scan of the loose branch (src/types.ts lines 377-386):
the first candidate whose exact key has not been claimed, together with
that key. -/
def firstUnclaimed (claimed : List String) : List Position → Option (Position × String)
  | [] => none
  | candidate :: rest =>
    let candidateKey := getPositionMatchKey candidate
    if candidateKey ∈ claimed then firstUnclaimed claimed rest
    else some (candidate, candidateKey)

/-- The two-tier match of one A position against the B indexes
(src/types.ts lines 364-387): exact lookup first, then first-available
loose candidate.  A missing loose key yields the same `none` as an empty
candidate list. -/
def matchB (bExact : String → Option Position) (bLoose : String → List Position)
    (claimed : List String) (posA : Position) : Option (Position × String) :=
  match bExact (getPositionMatchKey posA) with
  | some posB => some (posB, getPositionMatchKey posA)
  | none => firstUnclaimed claimed (bLoose (getLooseMatchKey posA))

/-- Mutable state of the loop over A's positions: the claimed B-side keys,
the diffs pushed so far, and the three counters the loop increments. -/
structure AState where
  claimed : List String
  diffs : List PositionDiff
  positionsOnlyInA : Nat
  commonPositions : Nat
  changedPositions : Nat
deriving DecidableEq

/-- Initial loop state. -/
def AState.init : AState := ⟨[], [], 0, 0, 0⟩

/-- The loop over A's positions (src/types.ts lines 362-439).  A missing
match pushes a `removed` diff; a match claims the matched B-side key and
pushes the pair diff, bumping the counter matching its classification. -/
def runA (bExact : String → Option Position) (bLoose : String → List Position) :
    List Position → AState → AState
  | [], st => st
  | posA :: rest, st =>
    match matchB bExact bLoose st.claimed posA with
    | none =>
      runA bExact bLoose rest
        { st with
          positionsOnlyInA := st.positionsOnlyInA + 1
          diffs := st.diffs ++ [removedDiff posA] }
    | some (posB, matchedKey) =>
      let d := pairDiff posA posB
      runA bExact bLoose rest
        { st with
          claimed := st.claimed ++ [matchedKey]
          diffs := st.diffs ++ [d]
          commonPositions :=
            if d.diffType = DiffType.unchanged then st.commonPositions + 1
            else st.commonPositions
          changedPositions :=
            if d.diffType = DiffType.changed then st.changedPositions + 1
            else st.changedPositions }

/-- The sort precedence of the final comparator (src/types.ts line 477). -/
def typeOrder : DiffType → Nat
  | .removed => 0
  | .added => 1
  | .changed => 2
  | .unchanged => 3

/-- The final comparator as a "stays weakly before" relation: diff `a`
may come before `b` exactly when the JS comparator of src/types.ts lines
475-483 returns a value `≤ 0`: strictly smaller type precedence, or equal
precedence and a weakly larger absolute value delta.
`Math.abs(d.valueDiffUSD || 0)` reads 0 for an absent delta.
JS `Array.prototype.sort` is stable, and the stable sort for the total
preorder induced by a comparator is unique, so the engine's sort is
modelled by insertion sort with this relation. -/
def diffLe (a b : PositionDiff) : Prop :=
  typeOrder a.diffType < typeOrder b.diffType ∨
    (typeOrder a.diffType = typeOrder b.diffType ∧
      |b.valueDiffUSD.getD 0| ≤ |a.valueDiffUSD.getD 0|)

instance : DecidableRel diffLe := fun a b => by
  unfold diffLe
  exact inferInstance

/-- Final A-loop state for a pair of datasets. -/
def compareState (sourceAData sourceBData : AddressDefiData) : AState :=
  runA (buildExactIndex sourceBData.positions) (buildLooseIndex sourceBData.positions)
    sourceAData.positions AState.init

/-- The claimed-key set after processing all of A. -/
def engineClaimed (sourceAData sourceBData : AddressDefiData) : List String :=
  (compareState sourceAData sourceBData).claimed

/-- The `added` diffs pushed by the loop over B (src/types.ts lines 441-457):
one per B position whose exact key was never claimed, in input order. -/
def addedDiffsOf (sourceAData sourceBData : AddressDefiData) : List PositionDiff :=
  (sourceBData.positions.filter
    (fun posB => decide (getPositionMatchKey posB ∉ engineClaimed sourceAData sourceBData))).map
    addedDiff

/-- The tiered reconciliation engine `compareDataSources`
(src/types.ts lines 318-491): index B, run the A loop, append the
`added` diffs, compute the summary from the loop counters and the two
datasets' declared totals, and sort the diff list. -/
def compareDataSources (sourceAData sourceBData : AddressDefiData) :
    DataSourceCompareResult :=
  let st := compareState sourceAData sourceBData
  let addedDiffs := addedDiffsOf sourceAData sourceBData
  let totalValueDiffUSD := sourceBData.totalValueUSD - sourceAData.totalValueUSD
  let totalValueDiffPercent :=
    percentDiffOf sourceAData.totalValueUSD sourceBData.totalValueUSD
  let summary : CompareSummary :=
    { totalValueDiffUSD := totalValueDiffUSD
      totalValueDiffPercent := totalValueDiffPercent
      positionsOnlyInA := st.positionsOnlyInA
      positionsOnlyInB := addedDiffs.length
      commonPositions := st.commonPositions
      changedPositions := st.changedPositions }
  { addressA := sourceAData
    addressB := sourceBData
    summary := summary
    positionDiffs := (st.diffs ++ addedDiffs).insertionSort diffLe }

/-- Map key of `CompareService.createPositionMap`
(compare.service.ts line 166): protocol id + chain + type. -/
def servicePositionKey (position : Position) : String :=
  position.protocol.id ++ ":" ++ position.protocol.chain ++ ":" ++ position.type.toStr

/-- JS `Map.get` on an association list whose keys are unique:
the first (only) entry with the key. -/
def mapLookup (map : List (String × Position)) (key : String) : Option Position :=
  (map.find? (fun e => decide (e.1 = key))).map Prod.snd

/-- JS `Map.set` on an existing key: the entry is updated in place,
keeping its position in insertion order. -/
def mapUpdate (map : List (String × Position)) (key : String) (p : Position) :
    List (String × Position) :=
  map.map (fun e => if e.1 = key then (key, p) else e)

/-- `CompareService.createPositionMap` (compare.service.ts lines 161-183):
positions sharing the protocol:chain:type key merge into the first
occurrence, summing `totalValueUSD` and concatenating token lists; a
fresh key appends a copy of the position. -/
def createPositionMap (positions : List Position) : List (String × Position) :=
  positions.foldl
    (fun map position =>
      let key := servicePositionKey position
      match mapLookup map key with
      | some existing =>
        mapUpdate map key
          { existing with
            totalValueUSD := existing.totalValueUSD + position.totalValueUSD
            tokens := existing.tokens ++ position.tokens }
      | none => map ++ [(key, { position with tokens := position.tokens })])
    []

/-- JS `Set` construction order: first occurrence of each key is kept. -/
def insertionOrderDedup (keys : List String) : List String :=
  keys.foldl (fun acc k => if k ∈ acc then acc else acc ++ [k]) []

/-- Sort precedence of `CompareService.comparePositions`
(compare.service.ts lines 143-148). -/
def serviceTypeOrder : DiffType → Nat
  | .added => 1
  | .removed => 2
  | .changed => 3
  | .unchanged => 4

/-- Stable-sort relation of `CompareService.comparePositions`. -/
def serviceDiffLe (a b : PositionDiff) : Prop :=
  serviceTypeOrder a.diffType < serviceTypeOrder b.diffType ∨
    (serviceTypeOrder a.diffType = serviceTypeOrder b.diffType ∧
      |b.valueDiffUSD.getD 0| ≤ |a.valueDiffUSD.getD 0|)

instance : DecidableRel serviceDiffLe := fun a b => by
  unfold serviceDiffLe
  exact inferInstance

/-- `CompareService.comparePositions` (compare.service.ts lines 75-156):
merge each side with `createPositionMap`, walk the union of keys, push a
`changed` diff above the 0.01% cutoff (an unchanged pair pushes nothing),
push `removed`/`added` for one-sided keys, and sort. -/
def serviceComparePositions (positionsA positionsB : List Position) :
    List PositionDiff :=
  let mapA := createPositionMap positionsA
  let mapB := createPositionMap positionsB
  let allKeys := insertionOrderDedup (mapA.map Prod.fst ++ mapB.map Prod.fst)
  let diffs := allKeys.foldl
    (fun diffs key =>
      match mapLookup mapA key, mapLookup mapB key with
      | some positionA, some positionB =>
        let valueDiff := positionB.totalValueUSD - positionA.totalValueUSD
        let valueDiffPercent :=
          percentDiffOf positionA.totalValueUSD positionB.totalValueUSD
        if 1 / 100 < |valueDiffPercent| then
          diffs ++
            [{ protocol := positionA.protocol.name
               chain := positionA.protocol.chain
               type := positionA.type
               diffType := DiffType.changed
               positionA := some positionA
               positionB := some positionB
               valueDiffUSD := some valueDiff
               valueDiffPercent := some valueDiffPercent }]
        else diffs
      | some positionA, none => diffs ++ [removedDiff positionA]
      | none, some positionB => diffs ++ [addedDiff positionB]
      | none, none => diffs)
    []
  diffs.insertionSort serviceDiffLe

/-- The static networkId-to-chain table of src/services/onekey.ts
(`NETWORK_ID_TO_CHAIN`, lines 14-42), in source order. -/
def NETWORK_ID_TO_CHAIN : List (String × String) :=
  [ ("evm--1", "ethereum")
  , ("evm--10", "optimism")
  , ("evm--100", "xdai")
  , ("evm--1101", "polygon-zkevm")
  , ("evm--130", "unichain")
  , ("evm--1313161554", "aurora")
  , ("evm--137", "polygon")
  , ("evm--143", "monad")
  , ("evm--146", "sonic")
  , ("evm--196", "okbchain")
  , ("evm--250", "fantom")
  , ("evm--324", "zksync-era")
  , ("evm--42161", "arbitrum")
  , ("evm--42220", "celo")
  , ("evm--43114", "avalanche")
  , ("evm--480", "world")
  , ("evm--50", "xinfin-xdc")
  , ("evm--5000", "mantle")
  , ("evm--534352", "scroll")
  , ("evm--56", "binance-smart-chain")
  , ("evm--59144", "linea")
  , ("evm--7777777", "zora")
  , ("evm--80094", "berachain")
  , ("evm--81457", "blast")
  , ("evm--8453", "base")
  , ("evm--9745", "plasma")
  , ("evm--999", "hyperevm") ]

/-- The inverted table (`CHAIN_TO_NETWORK_ID`, onekey.ts lines 45-47):
`Object.fromEntries` over the swapped entries. -/
def CHAIN_TO_NETWORK_ID : List (String × String) :=
  NETWORK_ID_TO_CHAIN.map (fun kv => (kv.2, kv.1))

/-- JS record lookup on an entry list: with duplicate keys the later entry
wins, as in an object literal or `Object.fromEntries`. -/
def recordGet (entries : List (String × String)) (key : String) : Option String :=
  ((entries.filter (fun e => decide (e.1 = key))).getLast?).map Prod.snd

/-- The parsed `positions` node of a OneKey response body
(onekey.ts lines 337-348): either directly an array, or an object keyed
by network id.  `ρ` abstracts the raw position payload. -/
inductive OnekeyPositionsNode (ρ : Type)
  | arr (positions : List ρ)
  | obj (entries : List (String × List ρ))

/-- A parsed OneKey response body: the API error code (absent when the
field is undefined) and the positions node after the
`data?.data?.data?.positions || data?.data?.positions || \x7b\x7d` chain. -/
structure OnekeyBody (ρ : Type) where
  code : Option Int
  positionsData : OnekeyPositionsNode ρ

/-- Outcome of one OneKey per-network HTTP call, abstracting the
transport: a thrown fetch error, a non-2xx status, an unparseable body,
or a parsed body. -/
inductive OnekeyOutcome (ρ : Type)
  | transportError
  | httpNotOk
  | unparseable
  | parsed (body : OnekeyBody ρ)

/-- The error-code test of onekey.ts line 329:
`data.code !== 0 && data.code !== undefined`. -/
def codeIsError (code : Option Int) : Bool :=
  match code with
  | some v => decide (v ≠ 0)
  | none => false

/-- Record lookup returning a position list, `|| []` on a missing key. -/
def recordGetPositions (entries : List (String × List ρ)) (key : String) : List ρ :=
  (((entries.filter (fun e => decide (e.1 = key))).getLast?).map Prod.snd).getD []

/-- `fetchNetworkPositions` (onekey.ts lines 303-363) as a function of the
call outcome: every failure path returns the empty list; a parsed body
with an acceptable code yields the positions for the queried network. -/
def fetchNetworkPositions (networkId : String) (outcome : OnekeyOutcome ρ) : List ρ :=
  match outcome with
  | .transportError => []
  | .httpNotOk => []
  | .unparseable => []
  | .parsed body =>
    if codeIsError body.code then []
    else
      match body.positionsData with
      | .arr positions => positions
      | .obj entries => recordGetPositions entries networkId

/-- The join of the per-network fetches in `getAddressDefiData`
(onekey.ts lines 419-426): one call per network, results flattened. -/
def fetchAllNetworks (networksToQuery : List String)
    (outcomeOf : String → OnekeyOutcome ρ) : List ρ :=
  (networksToQuery.map (fun networkId =>
    fetchNetworkPositions networkId (outcomeOf networkId))).flatten

/-- Outcome of one Zerion positions request
(`ZerionService.fetchPositions`, compare.service.ts lines 538-587):
HTTP 202 while processing, a thrown 429, a parsed success, or any other
thrown error. -/
inductive ZerionResp (ρ : Type)
  | accepted
  | rateLimited
  | ok (positions : List ρ)
  | failure

/-- Retry budget of the Zerion positions fetch (compare.service.ts line 539). -/
def MAX_RETRIES : Nat := 3

/-- The retry loop body: `budget` is `MAX_RETRIES - retries`, `attempt`
indexes the successive requests.  202 and 429 consume budget and retry;
success returns the payload; any other failure returns the empty list;
an exhausted budget falls out of the loop to the empty list. -/
def zerionFetchGo (respAt : Nat → ZerionResp ρ) : Nat → Nat → List ρ
  | 0, _ => []
  | budget + 1, attempt =>
    match respAt attempt with
    | .ok positions => positions
    | .accepted => zerionFetchGo respAt budget (attempt + 1)
    | .rateLimited => zerionFetchGo respAt budget (attempt + 1)
    | .failure => []

/-- `ZerionService.fetchPositions` over a trace of request outcomes. -/
def zerionFetchPositions (respAt : Nat → ZerionResp ρ) : List ρ :=
  zerionFetchGo respAt MAX_RETRIES 0

/-- Number of diffs in a list carrying a given classification. -/
def countOfType (t : DiffType) (diffs : List PositionDiff) : Nat :=
  diffs.countP (fun d => decide (d.diffType = t))

/-- The diff an A position yields when the loose tier is never exercised:
the pair diff against its exact-key hit, or a removed diff. -/
def exactTierDiff (bPositions : List Position) (posA : Position) : PositionDiff :=
  match buildExactIndex bPositions (getPositionMatchKey posA) with
  | some posB => pairDiff posA posB
  | none => removedDiff posA

/-- Whether an A position has an exact-key hit in B. -/
def exactTierMatched (bPositions : List Position) (posA : Position) : Bool :=
  (buildExactIndex bPositions (getPositionMatchKey posA)).isSome

/-! Concrete fixtures used by witnesses and counterexamples.  A fixture
token balance carries only the symbol the match keys read. -/

/-- Fixture token balance with the given symbol. -/
def fixtureTokenBalance (symbol : String) : TokenBalance :=
  { token := { symbol := symbol, name := symbol, address := "", decimals := 18 }
    balance := "0"
    balanceFormatted := 0
    balanceUSD := 0 }

/-- Fixture position with the fields the reconciliation engine reads. -/
def fixturePosition (pid chain : String) (type : PositionType)
    (symbols : List String) (value : ℚ) : Position :=
  { id := pid
    protocol := { id := pid, name := pid, chain := chain }
    type := type
    tokens := symbols.map fixtureTokenBalance
    totalValueUSD := value }

/-- Fixture dataset around a list of positions. -/
def fixtureData (positions : List Position) (total : ℚ) : AddressDefiData :=
  { address := "0xabc"
    totalValueUSD := total
    positions := positions
    chains := []
    lastUpdated := ""
    source := "fixture" }

/-- A-side position of the end-to-end scenario of the spec (value 1000). -/
def endPosA : Position := fixturePosition "protocolA" "eth" .lending ["ETH"] 1000

/-- B-side position of the end-to-end scenario of the spec (value 1100). -/
def endPosB : Position := fixturePosition "protocolA" "eth" .lending ["ETH"] 1100

/-- A-side dataset of the end-to-end scenario (total 1000). -/
def endToEndA : AddressDefiData := fixtureData [endPosA] 1000

/-- B-side dataset of the end-to-end scenario (total 1100). -/
def endToEndB : AddressDefiData := fixtureData [endPosB] 1100

/-- A-side dataset of the loose-match example:
(protocolX, ethereum, lending, [USDC]). -/
def looseExampleA : AddressDefiData :=
  fixtureData [fixturePosition "protocolX" "ethereum" .lending ["USDC"] 100] 100

/-- B-side dataset of the loose-match example:
(protocolX, ethereum, lending, [USDC, USDT]). -/
def looseExampleB : AddressDefiData :=
  fixtureData [fixturePosition "protocolX" "ethereum" .lending ["USDC", "USDT"] 100] 100

/-- Single-position A-side dataset of the permutation counterexample. -/
def permuteA : AddressDefiData := fixtureData [fixturePosition "p" "c" .lending ["X"] 100] 100

/-- First B-side candidate of the permutation counterexample: same loose
key as A's position, equal value. -/
def permuteB1 : Position := fixturePosition "p" "c" .lending ["X", "Y"] 100

/-- Second B-side candidate: same loose key, double value. -/
def permuteB2 : Position := fixturePosition "p" "c" .lending ["X", "Z"] 200

/-- B-side dataset listing the candidates in one order. -/
def permuteB : AddressDefiData := fixtureData [permuteB1, permuteB2] 300

/-- The same B-side dataset with the two positions swapped. -/
def permuteBswapped : AddressDefiData := { permuteB with positions := [permuteB2, permuteB1] }

/-- First A position of the claimed-key-reuse scenario: loose-matches the
single B position. -/
def reuseA1 : Position := fixturePosition "p" "c" .lending ["USDC"] 100

/-- Second A position: its exact key equals the B position's exact key. -/
def reuseA2 : Position := fixturePosition "p" "c" .lending ["USDC", "USDT"] 100

/-- The single B position of the claimed-key-reuse scenario. -/
def reuseB1 : Position := fixturePosition "p" "c" .lending ["USDC", "USDT"] 100

/-- A-side dataset of the claimed-key-reuse scenario. -/
def reuseDataA : AddressDefiData := fixtureData [reuseA1, reuseA2] 200

/-- B-side dataset of the claimed-key-reuse scenario. -/
def reuseDataB : AddressDefiData := fixtureData [reuseB1] 100

/-- First of two B positions sharing one exact key. -/
def dupB1 : Position := fixturePosition "p" "c" .lending ["X"] 100

/-- Second B position with the same exact key but different id and value. -/
def dupB2 : Position := { fixturePosition "p" "c" .lending ["X"] 50 with id := "duplicate" }

/-- A-side dataset whose position exact-matches the duplicated B key. -/
def dupA : AddressDefiData := fixtureData [fixturePosition "p" "c" .lending ["X"] 100] 100

/-- B-side dataset with the duplicate exact key. -/
def dupB : AddressDefiData := fixtureData [dupB1, dupB2] 150

/-- Empty A-side dataset. -/
def emptyA : AddressDefiData := fixtureData [] 0

/-- First position of the duplicate-merge fixture. -/
def mergeP1 : Position := fixturePosition "aave" "ethereum" .lending ["USDC"] 10

/-- Second position of the duplicate-merge fixture, same key fields. -/
def mergeP2 : Position := { fixturePosition "aave" "ethereum" .lending ["USDC"] 20 with id := "second" }

/-- First A position of the permutation-invariance witness fixture. -/
def invA1 : Position := fixturePosition "p1" "c" .lending ["AAA"] 100

/-- Second A position of the permutation-invariance witness fixture. -/
def invA2pos : Position := fixturePosition "p2" "c" .staking ["BBB"] 50

/-- Exact-key partner of `invA1` on the B side, value 110. -/
def invB1 : Position := fixturePosition "p1" "c" .lending ["AAA"] 110

/-- Unmatched extra B position. -/
def invB2pos : Position := fixturePosition "p3" "c" .farming ["CCC"] 70

/-- A-side dataset of the permutation-invariance witness. -/
def invA : AddressDefiData := fixtureData [invA1, invA2pos] 150

/-- The same A-side dataset with the positions swapped. -/
def invAperm : AddressDefiData := fixtureData [invA2pos, invA1] 150

/-- B-side dataset of the permutation-invariance witness. -/
def invB : AddressDefiData := fixtureData [invB1, invB2pos] 180

/-- The same B-side dataset with the positions swapped. -/
def invBperm : AddressDefiData := fixtureData [invB2pos, invB1] 180

/-! Helper lemmas about the embedding. -/

theorem countOfType_append (t : DiffType) (l1 l2 : List PositionDiff) :
    countOfType t (l1 ++ l2) = countOfType t l1 + countOfType t l2 :=
  List.countP_append _ l1 l2

theorem countOfType_singleton (t : DiffType) (d : PositionDiff) :
    countOfType t [d] = if d.diffType = t then 1 else 0 := by
  simp [countOfType, List.countP_cons]

theorem countOfType_perm (t : DiffType) {l1 l2 : List PositionDiff} (h : l1.Perm l2) :
    countOfType t l1 = countOfType t l2 :=
  h.countP_eq _

theorem countOfType_partition (l : List PositionDiff) :
    countOfType .added l + countOfType .removed l + countOfType .changed l
      + countOfType .unchanged l = l.length := by
  induction l with
  | nil => simp [countOfType]
  | cons d rest ih =>
    simp only [countOfType, List.countP_cons] at ih ⊢
    cases d.diffType <;> simp <;> omega

theorem pairDiff_diffType (a b : Position) :
    (pairDiff a b).diffType = DiffType.changed ∨ (pairDiff a b).diffType = DiffType.unchanged := by
  unfold pairDiff
  by_cases h : 1 < |percentDiffOf a.totalValueUSD b.totalValueUSD| <;> simp [h]

theorem pairDiff_changed_iff (a b : Position) :
    (pairDiff a b).diffType = DiffType.changed ↔
      1 < |percentDiffOf a.totalValueUSD b.totalValueUSD| := by
  unfold pairDiff
  by_cases h : 1 < |percentDiffOf a.totalValueUSD b.totalValueUSD| <;> simp [h]

theorem removedDiff_diffType (a : Position) : (removedDiff a).diffType = DiffType.removed := rfl

theorem addedDiff_diffType (b : Position) : (addedDiff b).diffType = DiffType.added := rfl

theorem runA_cons_none {be : String → Option Position} {bl : String → List Position}
    {posA : Position} {rest : List Position} {st : AState}
    (h : matchB be bl st.claimed posA = none) :
    runA be bl (posA :: rest) st =
      runA be bl rest
        { st with
          positionsOnlyInA := st.positionsOnlyInA + 1
          diffs := st.diffs ++ [removedDiff posA] } := by
  simp [runA, h]

theorem runA_cons_some {be : String → Option Position} {bl : String → List Position}
    {posA posB : Position} {matchedKey : String} {rest : List Position} {st : AState}
    (h : matchB be bl st.claimed posA = some (posB, matchedKey)) :
    runA be bl (posA :: rest) st =
      runA be bl rest
        { st with
          claimed := st.claimed ++ [matchedKey]
          diffs := st.diffs ++ [pairDiff posA posB]
          commonPositions :=
            if (pairDiff posA posB).diffType = DiffType.unchanged then st.commonPositions + 1
            else st.commonPositions
          changedPositions :=
            if (pairDiff posA posB).diffType = DiffType.changed then st.changedPositions + 1
            else st.changedPositions } := by
  simp [runA, h]

theorem runA_diffs_len (be : String → Option Position) (bl : String → List Position) :
    ∀ (l : List Position) (st : AState),
      (runA be bl l st).diffs.length = st.diffs.length + l.length := by
  intro l
  induction l with
  | nil => intro st; simp [runA]
  | cons posA rest ih =>
    intro st
    cases h : matchB be bl st.claimed posA with
    | none => rw [runA_cons_none h, ih]; simp; omega
    | some pk =>
      obtain ⟨posB, matchedKey⟩ := pk
      rw [runA_cons_some h, ih]; simp; omega

theorem runA_count_added (be : String → Option Position) (bl : String → List Position) :
    ∀ (l : List Position) (st : AState),
      countOfType .added (runA be bl l st).diffs = countOfType .added st.diffs := by
  intro l
  induction l with
  | nil => intro st; simp [runA]
  | cons posA rest ih =>
    intro st
    cases h : matchB be bl st.claimed posA with
    | none =>
      rw [runA_cons_none h, ih]
      simp [countOfType_append, countOfType_singleton, removedDiff_diffType]
    | some pk =>
      obtain ⟨posB, matchedKey⟩ := pk
      rw [runA_cons_some h, ih, countOfType_append, countOfType_singleton]
      rcases pairDiff_diffType posA posB with hd | hd <;> simp [hd]

theorem runA_onlyInA (be : String → Option Position) (bl : String → List Position) :
    ∀ (l : List Position) (st : AState),
      (runA be bl l st).positionsOnlyInA + countOfType .removed st.diffs
        = st.positionsOnlyInA + countOfType .removed (runA be bl l st).diffs := by
  intro l
  induction l with
  | nil => intro st; simp [runA]
  | cons posA rest ih =>
    intro st
    cases h : matchB be bl st.claimed posA with
    | none =>
      rw [runA_cons_none h]
      have := ih { st with
        positionsOnlyInA := st.positionsOnlyInA + 1
        diffs := st.diffs ++ [removedDiff posA] }
      simp only [countOfType_append, countOfType_singleton, removedDiff_diffType] at this ⊢
      simp at this ⊢
      omega
    | some pk =>
      obtain ⟨posB, matchedKey⟩ := pk
      rw [runA_cons_some h]
      have := ih { st with
        claimed := st.claimed ++ [matchedKey]
        diffs := st.diffs ++ [pairDiff posA posB]
        commonPositions :=
          if (pairDiff posA posB).diffType = DiffType.unchanged then st.commonPositions + 1
          else st.commonPositions
        changedPositions :=
          if (pairDiff posA posB).diffType = DiffType.changed then st.changedPositions + 1
          else st.changedPositions }
      simp only [countOfType_append, countOfType_singleton] at this ⊢
      rcases pairDiff_diffType posA posB with hd | hd <;> simp [hd] at this ⊢ <;> omega

theorem runA_common (be : String → Option Position) (bl : String → List Position) :
    ∀ (l : List Position) (st : AState),
      (runA be bl l st).commonPositions + countOfType .unchanged st.diffs
        = st.commonPositions + countOfType .unchanged (runA be bl l st).diffs := by
  intro l
  induction l with
  | nil => intro st; simp [runA]
  | cons posA rest ih =>
    intro st
    cases h : matchB be bl st.claimed posA with
    | none =>
      rw [runA_cons_none h]
      have := ih { st with
        positionsOnlyInA := st.positionsOnlyInA + 1
        diffs := st.diffs ++ [removedDiff posA] }
      simp only [countOfType_append, countOfType_singleton, removedDiff_diffType] at this ⊢
      simp at this ⊢
      omega
    | some pk =>
      obtain ⟨posB, matchedKey⟩ := pk
      rw [runA_cons_some h]
      have := ih { st with
        claimed := st.claimed ++ [matchedKey]
        diffs := st.diffs ++ [pairDiff posA posB]
        commonPositions :=
          if (pairDiff posA posB).diffType = DiffType.unchanged then st.commonPositions + 1
          else st.commonPositions
        changedPositions :=
          if (pairDiff posA posB).diffType = DiffType.changed then st.changedPositions + 1
          else st.changedPositions }
      simp only [countOfType_append, countOfType_singleton] at this ⊢
      rcases pairDiff_diffType posA posB with hd | hd <;> simp [hd] at this ⊢ <;> omega

theorem runA_changed (be : String → Option Position) (bl : String → List Position) :
    ∀ (l : List Position) (st : AState),
      (runA be bl l st).changedPositions + countOfType .changed st.diffs
        = st.changedPositions + countOfType .changed (runA be bl l st).diffs := by
  intro l
  induction l with
  | nil => intro st; simp [runA]
  | cons posA rest ih =>
    intro st
    cases h : matchB be bl st.claimed posA with
    | none =>
      rw [runA_cons_none h]
      have := ih { st with
        positionsOnlyInA := st.positionsOnlyInA + 1
        diffs := st.diffs ++ [removedDiff posA] }
      simp only [countOfType_append, countOfType_singleton, removedDiff_diffType] at this ⊢
      simp at this ⊢
      omega
    | some pk =>
      obtain ⟨posB, matchedKey⟩ := pk
      rw [runA_cons_some h]
      have := ih { st with
        claimed := st.claimed ++ [matchedKey]
        diffs := st.diffs ++ [pairDiff posA posB]
        commonPositions :=
          if (pairDiff posA posB).diffType = DiffType.unchanged then st.commonPositions + 1
          else st.commonPositions
        changedPositions :=
          if (pairDiff posA posB).diffType = DiffType.changed then st.changedPositions + 1
          else st.changedPositions }
      simp only [countOfType_append, countOfType_singleton] at this ⊢
      rcases pairDiff_diffType posA posB with hd | hd <;> simp [hd] at this ⊢ <;> omega

theorem mem_of_getLast?_eq_some {α : Type} {l : List α} {a : α}
    (h : l.getLast? = some a) : a ∈ l := by
  have ha : a ∈ l.getLast? := by simp [h, Option.mem_def]
  rcases List.mem_getLast?_eq_getLast ha with ⟨hne, rfl⟩
  exact List.getLast_mem hne

theorem buildExactIndex_eq_some {positions : List Position} {key : String} {p : Position}
    (h : buildExactIndex positions key = some p) :
    p ∈ positions ∧ getPositionMatchKey p = key := by
  unfold buildExactIndex at h
  have hmem := mem_of_getLast?_eq_some h
  rcases List.mem_filter.mp hmem with ⟨hp, hkey⟩
  exact ⟨hp, by simpa using hkey⟩

theorem buildLooseIndex_sub {positions : List Position} {key : String} {p : Position}
    (h : p ∈ buildLooseIndex positions key) :
    p ∈ positions ∧ getLooseMatchKey p = key := by
  unfold buildLooseIndex at h
  rcases List.mem_filter.mp h with ⟨hp, hkey⟩
  exact ⟨hp, by simpa using hkey⟩

theorem firstUnclaimed_eq_some {claimed : List String} :
    ∀ {candidates : List Position} {c : Position} {k : String},
      firstUnclaimed claimed candidates = some (c, k) →
      ∃ pre post, candidates = pre ++ c :: post ∧
        (∀ x ∈ pre, getPositionMatchKey x ∈ claimed) ∧
        k = getPositionMatchKey c ∧ k ∉ claimed := by
  intro candidates
  induction candidates with
  | nil => intro c k h; simp [firstUnclaimed] at h
  | cons candidate rest ih =>
    intro c k h
    unfold firstUnclaimed at h
    by_cases hmem : getPositionMatchKey candidate ∈ claimed
    · simp only [hmem, if_pos] at h
      rcases ih h with ⟨pre, post, heq, hpre, hk, hnot⟩
      refine ⟨candidate :: pre, post, by simp [heq], ?_, hk, hnot⟩
      intro x hx
      rcases List.mem_cons.mp hx with rfl | hx
      · exact hmem
      · exact hpre x hx
    · simp only [hmem, if_neg, not_false_iff] at h
      obtain ⟨rfl, rfl⟩ : candidate = c ∧ getPositionMatchKey candidate = k := by
        constructor <;> [skip; skip] <;> cases h <;> rfl
      exact ⟨[], rest, rfl, by simp, rfl, hmem⟩

theorem matchB_eq_some {positions : List Position} {claimed : List String}
    {posA posB : Position} {matchedKey : String}
    (h : matchB (buildExactIndex positions) (buildLooseIndex positions) claimed posA
        = some (posB, matchedKey)) :
    posB ∈ positions ∧ getPositionMatchKey posB = matchedKey := by
  unfold matchB at h
  cases hx : buildExactIndex positions (getPositionMatchKey posA) with
  | some pb =>
    rw [hx] at h
    obtain ⟨rfl, rfl⟩ : pb = posB ∧ getPositionMatchKey posA = matchedKey := by
      constructor <;> cases h <;> rfl
    rcases buildExactIndex_eq_some hx with ⟨hmem, hkey⟩
    exact ⟨hmem, hkey⟩
  | none =>
    rw [hx] at h
    rcases firstUnclaimed_eq_some h with ⟨pre, post, heq, _, hk, _⟩
    have hmem : posB ∈ buildLooseIndex positions (getLooseMatchKey posA) := by
      rw [heq]; simp
    exact ⟨(buildLooseIndex_sub hmem).1, hk.symm⟩

theorem runA_claimed_from_B (positions : List Position) :
    ∀ (l : List Position) (st : AState) (k : String),
      k ∈ (runA (buildExactIndex positions) (buildLooseIndex positions) l st).claimed →
      k ∈ st.claimed ∨ ∃ b ∈ positions, getPositionMatchKey b = k := by
  intro l
  induction l with
  | nil => intro st k h; exact Or.inl h
  | cons posA rest ih =>
    intro st k h
    cases hm : matchB (buildExactIndex positions) (buildLooseIndex positions) st.claimed posA with
    | none =>
      rw [runA_cons_none hm] at h
      have hres := ih _ k h
      exact hres
    | some pk =>
      obtain ⟨posB, matchedKey⟩ := pk
      rw [runA_cons_some hm] at h
      rcases ih _ k h with hin | hB
      · rcases List.mem_append.mp hin with hold | hnew
        · exact Or.inl hold
        · rcases matchB_eq_some hm with ⟨hmem, hkey⟩
          have : k = matchedKey := by simpa using hnew
          exact Or.inr ⟨posB, hmem, this ▸ hkey⟩
      · exact Or.inr hB

theorem runA_diffs_shape (be : String → Option Position) (bl : String → List Position) :
    ∀ (l : List Position) (st : AState) (d : PositionDiff),
      d ∈ (runA be bl l st).diffs →
      d ∈ st.diffs ∨ (∃ a, d = removedDiff a) ∨ ∃ a b, d = pairDiff a b := by
  intro l
  induction l with
  | nil => intro st d h; exact Or.inl h
  | cons posA rest ih =>
    intro st d h
    cases hm : matchB be bl st.claimed posA with
    | none =>
      rw [runA_cons_none hm] at h
      rcases ih _ d h with hin | hrest
      · rcases List.mem_append.mp hin with hold | hnew
        · exact Or.inl hold
        · exact Or.inr (Or.inl ⟨posA, by simpa using hnew⟩)
      · exact Or.inr hrest
    | some pk =>
      obtain ⟨posB, matchedKey⟩ := pk
      rw [runA_cons_some hm] at h
      rcases ih _ d h with hin | hrest
      · rcases List.mem_append.mp hin with hold | hnew
        · exact Or.inl hold
        · exact Or.inr (Or.inr ⟨posA, posB, by simpa using hnew⟩)
      · exact Or.inr hrest

instance : IsTrans PositionDiff diffLe := by
  constructor
  intro a b c hab hbc
  rcases hab with h1 | ⟨h1, h1q⟩ <;> rcases hbc with h2 | ⟨h2, h2q⟩
  · exact Or.inl (h1.trans h2)
  · exact Or.inl (h2 ▸ h1)
  · exact Or.inl (h1 ▸ h2)
  · exact Or.inr ⟨h1.trans h2, h2q.trans h1q⟩

instance : IsTotal PositionDiff diffLe := by
  constructor
  intro a b
  rcases lt_trichotomy (typeOrder a.diffType) (typeOrder b.diffType) with h | h | h
  · exact Or.inl (Or.inl h)
  · rcases le_total |b.valueDiffUSD.getD 0| |a.valueDiffUSD.getD 0| with hq | hq
    · exact Or.inl (Or.inr ⟨h, hq⟩)
    · exact Or.inr (Or.inr ⟨h.symm, hq⟩)
  · exact Or.inr (Or.inl h)

theorem compareDataSources_positionDiffs (sourceAData sourceBData : AddressDefiData) :
    (compareDataSources sourceAData sourceBData).positionDiffs =
      ((compareState sourceAData sourceBData).diffs
        ++ addedDiffsOf sourceAData sourceBData).insertionSort diffLe := rfl

theorem compareDataSources_summary (sourceAData sourceBData : AddressDefiData) :
    (compareDataSources sourceAData sourceBData).summary =
      { totalValueDiffUSD := sourceBData.totalValueUSD - sourceAData.totalValueUSD
        totalValueDiffPercent :=
          percentDiffOf sourceAData.totalValueUSD sourceBData.totalValueUSD
        positionsOnlyInA := (compareState sourceAData sourceBData).positionsOnlyInA
        positionsOnlyInB := (addedDiffsOf sourceAData sourceBData).length
        commonPositions := (compareState sourceAData sourceBData).commonPositions
        changedPositions := (compareState sourceAData sourceBData).changedPositions } := rfl

theorem addedDiffsOf_all_added {sourceAData sourceBData : AddressDefiData} {d : PositionDiff}
    (h : d ∈ addedDiffsOf sourceAData sourceBData) : ∃ b, d = addedDiff b := by
  unfold addedDiffsOf at h
  rcases List.mem_map.mp h with ⟨b, _, rfl⟩
  exact ⟨b, rfl⟩

theorem countOfType_all_added (t : DiffType) :
    ∀ (m : List PositionDiff), (∀ d ∈ m, ∃ b, d = addedDiff b) →
      countOfType t m = if DiffType.added = t then m.length else 0 := by
  intro m
  induction m with
  | nil => intro _; simp [countOfType]
  | cons d rest ih =>
    intro hall
    rcases hall d (by simp) with ⟨b, rfl⟩
    have hrest := ih (fun x hx => hall x (by simp [hx]))
    by_cases ht : DiffType.added = t
    · subst ht
      have hd : (decide ((addedDiff b).diffType = DiffType.added)) = true := by
        rw [addedDiff_diffType]; simp
      simp only [if_pos rfl] at hrest ⊢
      simp only [countOfType, List.countP_cons, hd] at hrest ⊢
      simp [hrest]
    · have hd : (decide ((addedDiff b).diffType = t)) = false := by
        rw [addedDiff_diffType]; simpa using ht
      simp only [if_neg ht] at hrest ⊢
      simp only [countOfType, List.countP_cons, hd] at hrest ⊢
      simp [hrest]

theorem countOfType_addedDiffsOf (t : DiffType) (sourceAData sourceBData : AddressDefiData) :
    countOfType t (addedDiffsOf sourceAData sourceBData) =
      if DiffType.added = t then (addedDiffsOf sourceAData sourceBData).length else 0 :=
  countOfType_all_added t _ (fun _ hd => addedDiffsOf_all_added hd)

theorem countOfType_final (t : DiffType) (sourceAData sourceBData : AddressDefiData) :
    countOfType t (compareDataSources sourceAData sourceBData).positionDiffs =
      countOfType t (compareState sourceAData sourceBData).diffs
        + countOfType t (addedDiffsOf sourceAData sourceBData) := by
  rw [compareDataSources_positionDiffs,
    countOfType_perm t (List.perm_insertionSort diffLe _), countOfType_append]

theorem compareState_counts (sourceAData sourceBData : AddressDefiData) :
    (compareState sourceAData sourceBData).positionsOnlyInA
        = countOfType .removed (compareState sourceAData sourceBData).diffs
      ∧ (compareState sourceAData sourceBData).commonPositions
        = countOfType .unchanged (compareState sourceAData sourceBData).diffs
      ∧ (compareState sourceAData sourceBData).changedPositions
        = countOfType .changed (compareState sourceAData sourceBData).diffs := by
  refine ⟨?_, ?_, ?_⟩
  · have h := runA_onlyInA (buildExactIndex sourceBData.positions)
      (buildLooseIndex sourceBData.positions) sourceAData.positions AState.init
    simpa [AState.init, countOfType, compareState] using h
  · have h := runA_common (buildExactIndex sourceBData.positions)
      (buildLooseIndex sourceBData.positions) sourceAData.positions AState.init
    simpa [AState.init, countOfType, compareState] using h
  · have h := runA_changed (buildExactIndex sourceBData.positions)
      (buildLooseIndex sourceBData.positions) sourceAData.positions AState.init
    simpa [AState.init, countOfType, compareState] using h

theorem compareState_no_added (sourceAData sourceBData : AddressDefiData) :
    countOfType .added (compareState sourceAData sourceBData).diffs = 0 := by
  have h := runA_count_added (buildExactIndex sourceBData.positions)
    (buildLooseIndex sourceBData.positions) sourceAData.positions AState.init
  simpa [AState.init, countOfType, compareState] using h

theorem compareState_diffs_len (sourceAData sourceBData : AddressDefiData) :
    (compareState sourceAData sourceBData).diffs.length = sourceAData.positions.length := by
  have h := runA_diffs_len (buildExactIndex sourceBData.positions)
    (buildLooseIndex sourceBData.positions) sourceAData.positions AState.init
  simpa [AState.init, compareState] using h

/-! Claim theorems. -/

/-- C4: the diff list returned by the reconciliation engine is sorted by
DiffType precedence removed < added < changed < unchanged (the four
`typeOrder` inequalities), and within equal precedence by descending
absolute value of `valueDiffUSD`. -/
theorem C4_output_sorted :
    (typeOrder .removed < typeOrder .added ∧ typeOrder .added < typeOrder .changed
      ∧ typeOrder .changed < typeOrder .unchanged)
    ∧ ∀ sourceAData sourceBData : AddressDefiData,
        List.Pairwise
          (fun d1 d2 =>
            typeOrder d1.diffType < typeOrder d2.diffType ∨
              (typeOrder d1.diffType = typeOrder d2.diffType ∧
                |d2.valueDiffUSD.getD 0| ≤ |d1.valueDiffUSD.getD 0|))
          (compareDataSources sourceAData sourceBData).positionDiffs := by
  refine ⟨⟨by decide, by decide, by decide⟩, ?_⟩
  intro sourceAData sourceBData
  rw [compareDataSources_positionDiffs]
  exact List.sorted_insertionSort diffLe _

/-- C5: every count in the CompareSummary equals the number of diffs of the
corresponding DiffType in the returned diff list, and the end-to-end
scenario (A: one lending position worth 1000, total 1000; B: the matching
position worth 1100, total 1100) yields summary (100, 10, 0, 0, 0, 1) with
a single `changed` diff at 10 percent. -/
theorem C5_summary_from_diffs :
    (∀ sourceAData sourceBData : AddressDefiData,
      (compareDataSources sourceAData sourceBData).summary.positionsOnlyInA
          = countOfType .removed (compareDataSources sourceAData sourceBData).positionDiffs
        ∧ (compareDataSources sourceAData sourceBData).summary.positionsOnlyInB
          = countOfType .added (compareDataSources sourceAData sourceBData).positionDiffs
        ∧ (compareDataSources sourceAData sourceBData).summary.changedPositions
          = countOfType .changed (compareDataSources sourceAData sourceBData).positionDiffs
        ∧ (compareDataSources sourceAData sourceBData).summary.commonPositions
          = countOfType .unchanged (compareDataSources sourceAData sourceBData).positionDiffs)
    ∧ (compareDataSources endToEndA endToEndB).summary =
        { totalValueDiffUSD := 100
          totalValueDiffPercent := 10
          positionsOnlyInA := 0
          positionsOnlyInB := 0
          commonPositions := 0
          changedPositions := 1 }
    ∧ (compareDataSources endToEndA endToEndB).positionDiffs.map
        (fun d => (d.diffType, d.valueDiffPercent)) = [(DiffType.changed, some 10)] := by
  refine ⟨?_, by with_unfolding_all decide, by with_unfolding_all decide⟩
  intro sourceAData sourceBData
  obtain ⟨h1, h2, h3⟩ := compareState_counts sourceAData sourceBData
  refine ⟨?_, ?_, ?_, ?_⟩
  · rw [countOfType_final, compareDataSources_summary]
    simp only [countOfType_addedDiffsOf]
    simpa using h1
  · rw [countOfType_final, compareDataSources_summary]
    simp only [countOfType_addedDiffsOf, compareState_no_added]
    simp
  · rw [countOfType_final, compareDataSources_summary]
    simp only [countOfType_addedDiffsOf]
    simpa using h3
  · rw [countOfType_final, compareDataSources_summary]
    simp only [countOfType_addedDiffsOf]
    simpa using h2

/-- C2: per dataset pair, the number of removed, changed and unchanged
diffs in the output equals the number of A positions; the number of added
diffs equals the number of B positions whose exact key is not in the final
claimed-key set; and every claimed key is the exact key of some B
position. -/
theorem C2_diff_partition :
    ∀ sourceAData sourceBData : AddressDefiData,
      countOfType .removed (compareDataSources sourceAData sourceBData).positionDiffs
          + countOfType .changed (compareDataSources sourceAData sourceBData).positionDiffs
          + countOfType .unchanged (compareDataSources sourceAData sourceBData).positionDiffs
        = sourceAData.positions.length
      ∧ countOfType .added (compareDataSources sourceAData sourceBData).positionDiffs
        = (sourceBData.positions.filter
            (fun posB =>
              decide (getPositionMatchKey posB ∉ engineClaimed sourceAData sourceBData))).length
      ∧ ∀ k ∈ engineClaimed sourceAData sourceBData,
          ∃ b ∈ sourceBData.positions, getPositionMatchKey b = k := by
  intro sourceAData sourceBData
  refine ⟨?_, ?_, ?_⟩
  · have hpart := countOfType_partition (compareState sourceAData sourceBData).diffs
    have hlen := compareState_diffs_len sourceAData sourceBData
    have hadd := compareState_no_added sourceAData sourceBData
    have hr := countOfType_final .removed sourceAData sourceBData
    have hc := countOfType_final .changed sourceAData sourceBData
    have hu := countOfType_final .unchanged sourceAData sourceBData
    simp only [countOfType_addedDiffsOf] at hr hc hu
    simp at hr hc hu
    omega
  · have ha := countOfType_final .added sourceAData sourceBData
    simp only [countOfType_addedDiffsOf, compareState_no_added] at ha
    simp at ha
    rw [ha]
    unfold addedDiffsOf
    rw [List.length_map]
  · intro k hk
    have h := runA_claimed_from_B sourceBData.positions sourceAData.positions AState.init k hk
    simpa [AState.init] using h

/-- C10: a B position yields an `added` diff exactly when its exact key is
absent from the final claimed-key set (the added diffs of the output are a
permutation of the filtered-and-mapped B positions); consequently, of two
distinct B positions sharing one exact key, the unmatched partner of a
matched one is silently omitted, while two unmatched sharers each produce
an added diff. -/
theorem C10_added_iff_unclaimed :
    (∀ sourceAData sourceBData : AddressDefiData,
      ((compareDataSources sourceAData sourceBData).positionDiffs.filter
          (fun d => decide (d.diffType = DiffType.added))).Perm
        ((sourceBData.positions.filter
            (fun posB =>
              decide (getPositionMatchKey posB ∉ engineClaimed sourceAData sourceBData))).map
          addedDiff))
    ∧ dupB1 ≠ dupB2
    ∧ getPositionMatchKey dupB1 = getPositionMatchKey dupB2
    ∧ (compareDataSources dupA dupB).positionDiffs.map (fun d => d.diffType)
        = [DiffType.changed]
    ∧ (compareDataSources dupA dupB).summary.positionsOnlyInB = 0
    ∧ (compareDataSources emptyA dupB).positionDiffs.map (fun d => d.diffType)
        = [DiffType.added, DiffType.added] := by
  refine ⟨?_, by with_unfolding_all decide, by with_unfolding_all decide,
    by with_unfolding_all decide, by with_unfolding_all decide, by with_unfolding_all decide⟩
  intro sourceAData sourceBData
  have hperm : ((compareDataSources sourceAData sourceBData).positionDiffs.filter
      (fun d => decide (d.diffType = DiffType.added))).Perm
      (((compareState sourceAData sourceBData).diffs
        ++ addedDiffsOf sourceAData sourceBData).filter
        (fun d => decide (d.diffType = DiffType.added))) := by
    rw [compareDataSources_positionDiffs]
    exact List.Perm.filter _ (List.perm_insertionSort diffLe _)
  have hsplit : (((compareState sourceAData sourceBData).diffs
      ++ addedDiffsOf sourceAData sourceBData).filter
      (fun d => decide (d.diffType = DiffType.added)))
      = addedDiffsOf sourceAData sourceBData := by
    rw [List.filter_append]
    have h1 : ((compareState sourceAData sourceBData).diffs.filter
        (fun d => decide (d.diffType = DiffType.added))) = [] := by
      rw [List.filter_eq_nil_iff]
      intro d hd
      rcases runA_diffs_shape _ _ sourceAData.positions AState.init d hd with h0 | ⟨a, rfl⟩ | ⟨a, b, rfl⟩
      · simp [AState.init] at h0
      · simp [removedDiff_diffType]
      · rcases pairDiff_diffType a b with hd2 | hd2 <;> simp [hd2]
    have h2 : ((addedDiffsOf sourceAData sourceBData).filter
        (fun d => decide (d.diffType = DiffType.added)))
        = addedDiffsOf sourceAData sourceBData := by
      rw [List.filter_eq_self]
      intro d hd
      rcases addedDiffsOf_all_added hd with ⟨b, rfl⟩
      simp [addedDiff_diffType]
    rw [h1, h2, List.nil_append]
  rw [hsplit] at hperm
  exact hperm

/-- C1: every changed or unchanged diff the engine emits is the pair diff
of a matched pair (posA, posB), with `valueDiffUSD = posB.totalValueUSD -
posA.totalValueUSD`, the percent formula of the spec, and classification
`changed` exactly when the absolute percent exceeds 1. -/
theorem C1_pair_diff_formula :
    ∀ sourceAData sourceBData : AddressDefiData,
      ∀ d ∈ (compareDataSources sourceAData sourceBData).positionDiffs,
        d.diffType = DiffType.changed ∨ d.diffType = DiffType.unchanged →
        ∃ posA posB : Position, d = pairDiff posA posB
          ∧ d.positionA = some posA
          ∧ d.positionB = some posB
          ∧ d.valueDiffUSD = some (posB.totalValueUSD - posA.totalValueUSD)
          ∧ d.valueDiffPercent = some (
              if 0 < posA.totalValueUSD then
                (posB.totalValueUSD - posA.totalValueUSD) / posA.totalValueUSD * 100
              else if 0 < posB.totalValueUSD then 100 else 0)
          ∧ (d.diffType = DiffType.changed ↔
              1 < |if 0 < posA.totalValueUSD then
                (posB.totalValueUSD - posA.totalValueUSD) / posA.totalValueUSD * 100
              else if 0 < posB.totalValueUSD then 100 else 0|) := by
  intro sourceAData sourceBData d hmem hty
  rw [compareDataSources_positionDiffs] at hmem
  have hmem2 : d ∈ (compareState sourceAData sourceBData).diffs
      ++ addedDiffsOf sourceAData sourceBData :=
    (List.perm_insertionSort diffLe _).mem_iff.mp hmem
  rcases List.mem_append.mp hmem2 with hst | hadd
  · rcases runA_diffs_shape (buildExactIndex sourceBData.positions)
      (buildLooseIndex sourceBData.positions) sourceAData.positions AState.init d hst with
      h0 | ⟨a, rfl⟩ | ⟨a, b, rfl⟩
    · simp [AState.init] at h0
    · rcases hty with h | h <;> rw [removedDiff_diffType] at h <;> cases h
    · exact ⟨a, b, rfl, rfl, rfl, rfl, rfl, pairDiff_changed_iff a b⟩
  · rcases addedDiffsOf_all_added hadd with ⟨b, rfl⟩
    rcases hty with h | h <;> rw [addedDiff_diffType] at h <;> cases h

/-- Witness for C1: the single changed diff of the end-to-end fixture. -/
theorem C1_pair_diff_formula_witness :
    (pairDiff endPosA endPosB ∈ (compareDataSources endToEndA endToEndB).positionDiffs)
    ∧ ((pairDiff endPosA endPosB).diffType = DiffType.changed
        ∨ (pairDiff endPosA endPosB).diffType = DiffType.unchanged)
    ∧ ∃ posA posB : Position, pairDiff endPosA endPosB = pairDiff posA posB
        ∧ (pairDiff endPosA endPosB).positionA = some posA
        ∧ (pairDiff endPosA endPosB).positionB = some posB
        ∧ (pairDiff endPosA endPosB).valueDiffUSD
            = some (posB.totalValueUSD - posA.totalValueUSD)
        ∧ (pairDiff endPosA endPosB).valueDiffPercent = some (
            if 0 < posA.totalValueUSD then
              (posB.totalValueUSD - posA.totalValueUSD) / posA.totalValueUSD * 100
            else if 0 < posB.totalValueUSD then 100 else 0)
        ∧ ((pairDiff endPosA endPosB).diffType = DiffType.changed ↔
            1 < |if 0 < posA.totalValueUSD then
              (posB.totalValueUSD - posA.totalValueUSD) / posA.totalValueUSD * 100
            else if 0 < posB.totalValueUSD then 100 else 0|) := by
  have hmem : pairDiff endPosA endPosB
      ∈ (compareDataSources endToEndA endToEndB).positionDiffs := by
    with_unfolding_all decide
  have hty : (pairDiff endPosA endPosB).diffType = DiffType.changed
      ∨ (pairDiff endPosA endPosB).diffType = DiffType.unchanged := by
    with_unfolding_all decide
  exact ⟨hmem, hty, C1_pair_diff_formula endToEndA endToEndB _ hmem hty⟩

/-- Witness for C2: the claimed key of the end-to-end fixture is the exact
key of a B position. -/
theorem C2_diff_partition_witness :
    ("protocola-eth-lending-eth" ∈ engineClaimed endToEndA endToEndB)
    ∧ ∃ b ∈ endToEndB.positions,
        getPositionMatchKey b = "protocola-eth-lending-eth" := by
  have hk : "protocola-eth-lending-eth" ∈ engineClaimed endToEndA endToEndB := by
    with_unfolding_all decide
  exact ⟨hk, (C2_diff_partition endToEndA endToEndB).2.2 _ hk⟩

/-- Counterexample to C3 as stated: in the claimed-key-reuse fixture the
first A position loose-matches the single B position and its exact key is
recorded as claimed, yet the second A position still matches the same B
position through the exact tier, so a claimed B-side key CAN be matched
again.  Both emitted diffs carry `positionB = some reuseB1`. -/
theorem C3_counterexample_claimed_key_reused :
    (getPositionMatchKey reuseB1 ∈ engineClaimed reuseDataA reuseDataB)
    ∧ (compareDataSources reuseDataA reuseDataB).positionDiffs.map
        (fun d => (d.diffType, d.positionA, d.positionB))
      = [(DiffType.unchanged, some reuseA1, some reuseB1),
         (DiffType.unchanged, some reuseA2, some reuseB1)] := by
  constructor <;> with_unfolding_all decide

/-- C3 amended: exact-key lookup is attempted first; only on an exact miss
is the loose tier consulted, which selects the first candidate whose exact
key is unclaimed; the selected key is the candidate's exact key and a key
just claimed can never be selected again by a later loose lookup; and the
USDC vs USDC+USDT example pairs via the loose key into a single diff
(neither removed nor added).  (As the counterexample shows, the claimed
set does not prevent re-matching through the exact tier.) -/
theorem C3_tiered_matching :
    (∀ (positions : List Position) (claimed : List String) (posA posB : Position),
        buildExactIndex positions (getPositionMatchKey posA) = some posB →
        matchB (buildExactIndex positions) (buildLooseIndex positions) claimed posA
          = some (posB, getPositionMatchKey posA))
    ∧ (∀ (positions : List Position) (claimed : List String) (posA : Position),
        buildExactIndex positions (getPositionMatchKey posA) = none →
        matchB (buildExactIndex positions) (buildLooseIndex positions) claimed posA
          = firstUnclaimed claimed (buildLooseIndex positions (getLooseMatchKey posA)))
    ∧ (∀ (claimed : List String) (candidates : List Position) (c : Position) (k : String),
        firstUnclaimed claimed candidates = some (c, k) →
        ∃ pre post, candidates = pre ++ c :: post
          ∧ (∀ x ∈ pre, getPositionMatchKey x ∈ claimed)
          ∧ k = getPositionMatchKey c ∧ k ∉ claimed)
    ∧ (∀ (claimed : List String) (k : String) (candidates : List Position)
          (c : Position) (k2 : String),
        firstUnclaimed (claimed ++ [k]) candidates = some (c, k2) → k2 ≠ k)
    ∧ (compareDataSources looseExampleA looseExampleB).positionDiffs.map
        (fun d => d.diffType) = [DiffType.unchanged]
    ∧ (compareDataSources looseExampleA looseExampleB).summary.positionsOnlyInA = 0
    ∧ (compareDataSources looseExampleA looseExampleB).summary.positionsOnlyInB = 0 := by
  refine ⟨?_, ?_, ?_, ?_, by with_unfolding_all decide, by with_unfolding_all decide,
    by with_unfolding_all decide⟩
  · intro positions claimed posA posB h
    unfold matchB
    rw [h]
  · intro positions claimed posA h
    unfold matchB
    rw [h]
  · intro claimed candidates c k h
    exact firstUnclaimed_eq_some h
  · intro claimed k candidates c k2 h
    rcases firstUnclaimed_eq_some h with ⟨_, _, _, _, _, hnot⟩
    intro hkk
    exact hnot (by simp [hkk])

/-- Witness for C3 amended: an exact hit short-circuits the loose tier at
a concrete index, and the loose-example conjuncts are evaluated. -/
theorem C3_tiered_matching_witness :
    (buildExactIndex [endPosB] (getPositionMatchKey endPosA) = some endPosB)
    ∧ matchB (buildExactIndex [endPosB]) (buildLooseIndex [endPosB]) [] endPosA
        = some (endPosB, getPositionMatchKey endPosA) := by
  have h : buildExactIndex [endPosB] (getPositionMatchKey endPosA) = some endPosB := by
    with_unfolding_all decide
  exact ⟨h, C3_tiered_matching.1 [endPosB] [] endPosA endPosB h⟩

theorem mapUpdate_keys (map : List (String × Position)) (key : String) (p : Position) :
    (mapUpdate map key p).map Prod.fst = map.map Prod.fst := by
  unfold mapUpdate
  induction map with
  | nil => rfl
  | cons e rest ih =>
    simp only [List.map_cons, ih]
    by_cases h : e.1 = key
    · simp [h]
    · simp [h]

theorem createPositionMap_keys_nodup (positions : List Position) :
    ((createPositionMap positions).map Prod.fst).Nodup := by
  unfold createPositionMap
  have hgen : ∀ (acc : List (String × Position)), (acc.map Prod.fst).Nodup →
      ((positions.foldl
        (fun map position =>
          let key := servicePositionKey position
          match mapLookup map key with
          | some existing =>
            mapUpdate map key
              { existing with
                totalValueUSD := existing.totalValueUSD + position.totalValueUSD
                tokens := existing.tokens ++ position.tokens }
          | none => map ++ [(key, { position with tokens := position.tokens })]) acc).map
        Prod.fst).Nodup := by
    induction positions with
    | nil => intro acc hacc; exact hacc
    | cons p rest ih =>
      intro acc hacc
      simp only [List.foldl_cons]
      cases hl : mapLookup acc (servicePositionKey p) with
      | some existing =>
        simp only [hl]
        exact ih _ (by rw [mapUpdate_keys]; exact hacc)
      | none =>
        simp only [hl]
        refine ih _ ?_
        rw [List.map_append, List.nodup_append]
        refine ⟨hacc, by simp, ?_⟩
        have hfind : List.find? (fun e => decide (e.1 = servicePositionKey p)) acc = none := by
          simp only [mapLookup] at hl
          exact Option.map_eq_none'.mp hl
        intro k hk1 hk2
        rcases List.mem_map.mp hk1 with ⟨e, he, rfl⟩
        have hmem2 : e.1 = servicePositionKey p := by simpa using hk2
        have hne := List.find?_eq_none.mp hfind e he
        simp [hmem2] at hne
  exact hgen [] (by simp)

/-- C7: positions in one dataset sharing the protocol+chain+type (hence
any two sharing the full exact key) are merged by `createPositionMap`
into one position whose value is the sum and whose token list is the
concatenation; the resulting map never carries duplicate keys; and the
map-based matching of `CompareService.comparePositions` operates on the
merged position (one removed diff worth the merged -30 for the fixture
pair against an empty B). -/
theorem C7_duplicate_key_merge :
    (∀ p1 p2 : Position,
        p1.protocol.id = p2.protocol.id → p1.protocol.chain = p2.protocol.chain →
        p1.type = p2.type →
        createPositionMap [p1, p2]
          = [(servicePositionKey p1,
              { p1 with
                totalValueUSD := p1.totalValueUSD + p2.totalValueUSD
                tokens := p1.tokens ++ p2.tokens })])
    ∧ (∀ positions : List Position, ((createPositionMap positions).map Prod.fst).Nodup)
    ∧ (serviceComparePositions [mergeP1, mergeP2] []).map
        (fun d => (d.diffType, d.valueDiffUSD))
      = [(DiffType.removed, some (-(30 : ℚ)))] := by
  refine ⟨?_, createPositionMap_keys_nodup, by with_unfolding_all decide⟩
  intro p1 p2 hid hchain htype
  have hk : servicePositionKey p2 = servicePositionKey p1 := by
    unfold servicePositionKey
    rw [hid, hchain, htype]
  simp [createPositionMap, mapLookup, mapUpdate, hk]

/-- Witness for C7: the fixture pair merges into one entry worth 30 with
both token lists. -/
theorem C7_duplicate_key_merge_witness :
    createPositionMap [mergeP1, mergeP2]
      = [(servicePositionKey mergeP1,
          { mergeP1 with
            totalValueUSD := mergeP1.totalValueUSD + mergeP2.totalValueUSD
            tokens := mergeP1.tokens ++ mergeP2.tokens })] :=
  C7_duplicate_key_merge.1 mergeP1 mergeP2 rfl rfl rfl

/-- C8: translating any canonical chain present in the static table to its
provider network id and back yields the same chain. -/
theorem C8_chain_roundtrip :
    ∀ c ∈ NETWORK_ID_TO_CHAIN.map Prod.snd,
      (recordGet CHAIN_TO_NETWORK_ID c).bind (recordGet NETWORK_ID_TO_CHAIN) = some c := by
  decide

/-- Witness for C8 at the ethereum entry. -/
theorem C8_chain_roundtrip_witness :
    ("ethereum" ∈ NETWORK_ID_TO_CHAIN.map Prod.snd)
    ∧ (recordGet CHAIN_TO_NETWORK_ID "ethereum").bind (recordGet NETWORK_ID_TO_CHAIN)
        = some "ethereum" :=
  ⟨by decide, C8_chain_roundtrip "ethereum" (by decide)⟩

theorem zerionFetchGo_all_retry {ρ : Type} (respAt : Nat → ZerionResp ρ) :
    ∀ (budget attempt : Nat),
      (∀ j, j < budget →
        respAt (attempt + j) = .accepted ∨ respAt (attempt + j) = .rateLimited) →
      zerionFetchGo respAt budget attempt = [] := by
  intro budget
  induction budget with
  | zero => intro attempt _; rfl
  | succ b ih =>
    intro attempt h
    have h0 : respAt attempt = .accepted ∨ respAt attempt = .rateLimited := by
      simpa using h 0 (Nat.succ_pos b)
    have hrest : ∀ j, j < b →
        respAt (attempt + 1 + j) = .accepted ∨ respAt (attempt + 1 + j) = .rateLimited := by
      intro j hj
      have := h (j + 1) (Nat.succ_lt_succ hj)
      rwa [show attempt + (j + 1) = attempt + 1 + j by omega] at this
    rcases h0 with h0 | h0 <;> simp [zerionFetchGo, h0] <;> exact ih (attempt + 1) hrest

theorem zerionFetchGo_failure {ρ : Type} (respAt : Nat → ZerionResp ρ) :
    ∀ (n budget attempt : Nat), n < budget →
      (∀ j, j < n →
        respAt (attempt + j) = .accepted ∨ respAt (attempt + j) = .rateLimited) →
      respAt (attempt + n) = .failure →
      zerionFetchGo respAt budget attempt = [] := by
  intro n
  induction n with
  | zero =>
    intro budget attempt hb _ hfail
    obtain ⟨b, rfl⟩ : ∃ b, budget = b + 1 := ⟨budget - 1, by omega⟩
    simp only [Nat.add_zero] at hfail
    simp [zerionFetchGo, hfail]
  | succ m ih =>
    intro budget attempt hb hretry hfail
    obtain ⟨b, rfl⟩ : ∃ b, budget = b + 1 := ⟨budget - 1, by omega⟩
    have h0 : respAt attempt = .accepted ∨ respAt attempt = .rateLimited := by
      simpa using hretry 0 (Nat.succ_pos m)
    have hrest : ∀ j, j < m →
        respAt (attempt + 1 + j) = .accepted ∨ respAt (attempt + 1 + j) = .rateLimited := by
      intro j hj
      have := hretry (j + 1) (Nat.succ_lt_succ hj)
      rwa [show attempt + (j + 1) = attempt + 1 + j by omega] at this
    have hfail2 : respAt (attempt + 1 + m) = .failure := by
      rwa [show attempt + (m + 1) = attempt + 1 + m by omega] at hfail
    rcases h0 with h0 | h0 <;> simp [zerionFetchGo, h0] <;>
      exact ih b (attempt + 1) (by omega) hrest hfail2

/-- C9: every failed per-chain fetch yields an empty position list rather
than an error: the OneKey per-network call returns [] on transport error,
non-2xx status, unparseable body or a nonzero API error code; the Zerion
positions fetch returns [] when the 3-attempt budget is exhausted by
202/429 responses, and returns [] on any other error after any retryable
prefix; and a join over networks that all fail still succeeds with zero
positions. -/
theorem C9_failures_yield_empty :
    (∀ (ρ : Type) (networkId : String),
        fetchNetworkPositions (ρ := ρ) networkId .transportError = []
        ∧ fetchNetworkPositions (ρ := ρ) networkId .httpNotOk = []
        ∧ fetchNetworkPositions (ρ := ρ) networkId .unparseable = [])
    ∧ (∀ (ρ : Type) (networkId : String) (body : OnekeyBody ρ),
        codeIsError body.code = true →
        fetchNetworkPositions networkId (.parsed body) = [])
    ∧ (∀ (ρ : Type) (respAt : Nat → ZerionResp ρ),
        (∀ j, j < MAX_RETRIES → respAt j = .accepted ∨ respAt j = .rateLimited) →
        zerionFetchPositions respAt = [])
    ∧ (∀ (ρ : Type) (respAt : Nat → ZerionResp ρ) (n : Nat),
        n < MAX_RETRIES →
        (∀ j, j < n → respAt j = .accepted ∨ respAt j = .rateLimited) →
        respAt n = .failure →
        zerionFetchPositions respAt = [])
    ∧ (∀ (ρ : Type) (networksToQuery : List String)
          (outcomeOf : String → OnekeyOutcome ρ),
        (∀ networkId ∈ networksToQuery,
          fetchNetworkPositions networkId (outcomeOf networkId) = []) →
        fetchAllNetworks networksToQuery outcomeOf = []) := by
  refine ⟨?_, ?_, ?_, ?_, ?_⟩
  · intro ρ networkId
    exact ⟨rfl, rfl, rfl⟩
  · intro ρ networkId body h
    simp [fetchNetworkPositions, h]
  · intro ρ respAt h
    have := zerionFetchGo_all_retry respAt MAX_RETRIES 0
    simp only [Nat.zero_add] at this
    exact this h
  · intro ρ respAt n hn hretry hfail
    have := zerionFetchGo_failure respAt n MAX_RETRIES 0 hn
    simp only [Nat.zero_add] at this
    exact this hretry hfail
  · intro ρ networksToQuery outcomeOf h
    unfold fetchAllNetworks
    induction networksToQuery with
    | nil => rfl
    | cons nid rest ih =>
      simp only [List.map_cons, List.flatten_cons]
      rw [h nid (by simp), List.nil_append]
      exact ih (fun x hx => h x (by simp [hx]))

/-- Witness for C9: all five conjuncts evaluated at concrete traces. -/
theorem C9_failures_yield_empty_witness :
    (fetchNetworkPositions (ρ := Unit) "evm--1" .transportError = [])
    ∧ (codeIsError (some 5) = true
        ∧ fetchNetworkPositions (ρ := Unit) "evm--1"
            (.parsed { code := some 5, positionsData := .arr [] }) = [])
    ∧ zerionFetchPositions (ρ := Unit) (fun _ => .rateLimited) = []
    ∧ zerionFetchPositions (ρ := Unit) (fun _ => .failure) = []
    ∧ fetchAllNetworks (ρ := Unit) ["evm--1"] (fun _ => .transportError) = [] := by
  refine ⟨(C9_failures_yield_empty.1 Unit "evm--1").1, ⟨rfl, ?_⟩, ?_, ?_, ?_⟩
  · exact C9_failures_yield_empty.2.1 Unit "evm--1" _ rfl
  · exact C9_failures_yield_empty.2.2.1 Unit _ (fun j _ => Or.inr rfl)
  · exact C9_failures_yield_empty.2.2.2.1 Unit _ 0 (by decide)
      (fun j hj => absurd hj (by omega)) rfl
  · exact C9_failures_yield_empty.2.2.2.2 Unit ["evm--1"] _ (fun nid _ => rfl)

theorem length_filter_key_le_one {α β : Type} [DecidableEq β] (f : α → β) :
    ∀ (l : List α), (l.map f).Nodup → ∀ b : β,
      (l.filter (fun x => decide (f x = b))).length ≤ 1 := by
  intro l
  induction l with
  | nil => intro _ b; simp
  | cons x rest ih =>
    intro h b
    simp only [List.map_cons, List.nodup_cons] at h
    obtain ⟨hx, hrest⟩ := h
    by_cases hfx : f x = b
    · have hnil : rest.filter (fun y => decide (f y = b)) = [] := by
        rw [List.filter_eq_nil_iff]
        intro y hy hdec
        have hfy : f y = b := by simpa using hdec
        exact hx (List.mem_map.mpr ⟨y, hy, by rw [hfy, hfx]⟩)
      simp [List.filter_cons, hfx, hnil]
    · simp only [List.filter_cons, hfx]
      simpa using ih hrest b

theorem eq_of_perm_length_le_one {α : Type} {l1 l2 : List α} (h : l1.Perm l2)
    (hl : l1.length ≤ 1) : l1 = l2 := by
  cases l1 with
  | nil => exact h.nil_eq
  | cons a t =>
    cases t with
    | nil => exact (List.perm_singleton.mp h.symm).symm
    | cons b t2 => simp at hl

theorem buildExactIndex_perm {B1 B2 : List Position} (h : B1.Perm B2)
    (hnodup : (B1.map getPositionMatchKey).Nodup) (k : String) :
    buildExactIndex B1 k = buildExactIndex B2 k := by
  unfold buildExactIndex
  rw [eq_of_perm_length_le_one (h.filter _)
    (length_filter_key_le_one getPositionMatchKey B1 hnodup k)]

theorem buildLooseIndex_perm_nil {B1 B2 : List Position} (h : B1.Perm B2) (k : String)
    (hk : buildLooseIndex B1 k = []) : buildLooseIndex B2 k = [] := by
  unfold buildLooseIndex at hk ⊢
  have hp := h.filter (fun p => decide (getLooseMatchKey p = k))
  rw [hk] at hp
  exact hp.nil_eq.symm

theorem runA_exact_only (B : List Position) :
    ∀ (l : List Position) (st : AState),
      (∀ a ∈ l, (buildExactIndex B (getPositionMatchKey a)).isSome = true
          ∨ buildLooseIndex B (getLooseMatchKey a) = []) →
      runA (buildExactIndex B) (buildLooseIndex B) l st =
        { claimed := st.claimed ++ (l.filter (exactTierMatched B)).map getPositionMatchKey
          diffs := st.diffs ++ l.map (exactTierDiff B)
          positionsOnlyInA := st.positionsOnlyInA
            + l.countP (fun a => decide ((exactTierDiff B a).diffType = DiffType.removed))
          commonPositions := st.commonPositions
            + l.countP (fun a => decide ((exactTierDiff B a).diffType = DiffType.unchanged))
          changedPositions := st.changedPositions
            + l.countP (fun a => decide ((exactTierDiff B a).diffType = DiffType.changed)) } := by
  intro l
  induction l with
  | nil =>
    intro st _
    cases st
    simp [runA]
  | cons posA rest ih =>
    intro st hcond
    have hposA := hcond posA (by simp)
    cases hmatch : buildExactIndex B (getPositionMatchKey posA) with
    | some posB =>
      have hmB : matchB (buildExactIndex B) (buildLooseIndex B) st.claimed posA
          = some (posB, getPositionMatchKey posA) := by
        unfold matchB
        rw [hmatch]
      rw [runA_cons_some hmB, ih _ (fun a ha => hcond a (by simp [ha]))]
      have hd : exactTierDiff B posA = pairDiff posA posB := by
        unfold exactTierDiff
        rw [hmatch]
      have hm : exactTierMatched B posA = true := by
        unfold exactTierMatched
        rw [hmatch]
        rfl
      cases st with
      | mk claimed diffs onlyA common changed =>
        simp only [AState.mk.injEq]
        refine ⟨?_, ?_, ?_, ?_, ?_⟩
        · simp [List.filter_cons, hm, hd]
        · simp [hd]
        · simp only [List.countP_cons, hd]
          rcases pairDiff_diffType posA posB with h2 | h2 <;> simp [h2]
        · simp only [List.countP_cons, hd]
          rcases pairDiff_diffType posA posB with h2 | h2 <;> simp [h2]
          all_goals omega
        · simp only [List.countP_cons, hd]
          rcases pairDiff_diffType posA posB with h2 | h2 <;> simp [h2]
          all_goals omega
    | none =>
      have hloose : buildLooseIndex B (getLooseMatchKey posA) = [] := by
        rcases hposA with h1 | h1
        · rw [hmatch] at h1
          cases h1
        · exact h1
      have hmB : matchB (buildExactIndex B) (buildLooseIndex B) st.claimed posA = none := by
        unfold matchB
        rw [hmatch, hloose]
        rfl
      rw [runA_cons_none hmB, ih _ (fun a ha => hcond a (by simp [ha]))]
      have hd : exactTierDiff B posA = removedDiff posA := by
        unfold exactTierDiff
        rw [hmatch]
      have hm : exactTierMatched B posA = false := by
        unfold exactTierMatched
        rw [hmatch]
        rfl
      cases st with
      | mk claimed diffs onlyA common changed =>
        simp only [AState.mk.injEq]
        refine ⟨?_, ?_, ?_, ?_, ?_⟩
        · simp [List.filter_cons, hm]
        · simp [hd]
        · simp only [List.countP_cons, hd]
          simp [removedDiff_diffType]
          omega
        · simp only [List.countP_cons, hd]
          simp [removedDiff_diffType]
        · simp only [List.countP_cons, hd]
          simp [removedDiff_diffType]

/-- Counterexample to C6 as stated: swapping the order of B's two
positions (a permutation leaving the multiset of positions and the
declared total unchanged) changes both the multiset of PositionDiffs and
the CompareSummary, because the loose fallback selects the first
unclaimed candidate in input order. -/
theorem C6_counterexample_order_sensitivity :
    permuteBswapped.positions.Perm permuteB.positions
    ∧ permuteBswapped.totalValueUSD = permuteB.totalValueUSD
    ∧ (compareDataSources permuteA permuteBswapped).summary
        ≠ (compareDataSources permuteA permuteB).summary
    ∧ ¬ (compareDataSources permuteA permuteBswapped).positionDiffs.Perm
          (compareDataSources permuteA permuteB).positionDiffs := by
  refine ⟨?_, ?_, ?_, ?_⟩ <;> with_unfolding_all decide

/-- C6 amended: permuting the position lists of A and/or B yields the same
multiset of PositionDiffs and an identical CompareSummary whenever the
loose fallback is not exercised: B carries no duplicate exact keys and
every A position either has an exact-key hit in B or has no loose-key
candidates in B at all.  (The counterexample shows the unrestricted claim
fails when two B candidates share a loose key.) -/
theorem C6_permutation_invariance
    (sourceAData sourceBData permutedA permutedB : AddressDefiData)
    (hA : permutedA.positions.Perm sourceAData.positions)
    (hB : permutedB.positions.Perm sourceBData.positions)
    (hAt : permutedA.totalValueUSD = sourceAData.totalValueUSD)
    (hBt : permutedB.totalValueUSD = sourceBData.totalValueUSD)
    (hNodupB : (sourceBData.positions.map getPositionMatchKey).Nodup)
    (hNoLoose : ∀ a ∈ sourceAData.positions,
      (buildExactIndex sourceBData.positions (getPositionMatchKey a)).isSome = true
        ∨ buildLooseIndex sourceBData.positions (getLooseMatchKey a) = []) :
    (compareDataSources permutedA permutedB).positionDiffs.Perm
        (compareDataSources sourceAData sourceBData).positionDiffs
      ∧ (compareDataSources permutedA permutedB).summary
        = (compareDataSources sourceAData sourceBData).summary := by
  have hnodup2 : (permutedB.positions.map getPositionMatchKey).Nodup :=
    ((hB.map getPositionMatchKey).symm).nodup hNodupB
  have hBE : ∀ k, buildExactIndex permutedB.positions k
      = buildExactIndex sourceBData.positions k :=
    fun k => buildExactIndex_perm hB hnodup2 k
  have hET : ∀ a, exactTierDiff permutedB.positions a = exactTierDiff sourceBData.positions a := by
    intro a
    unfold exactTierDiff
    rw [hBE]
  have hEM : ∀ a, exactTierMatched permutedB.positions a
      = exactTierMatched sourceBData.positions a := by
    intro a
    unfold exactTierMatched
    rw [hBE]
  have hNoLoose2 : ∀ a ∈ permutedA.positions,
      (buildExactIndex permutedB.positions (getPositionMatchKey a)).isSome = true
        ∨ buildLooseIndex permutedB.positions (getLooseMatchKey a) = [] := by
    intro a ha
    rcases hNoLoose a (hA.mem_iff.mp ha) with h1 | h1
    · exact Or.inl (by rw [hBE]; exact h1)
    · exact Or.inr (buildLooseIndex_perm_nil hB.symm _ h1)
  have hrun2 := runA_exact_only permutedB.positions permutedA.positions AState.init hNoLoose2
  have hrun1 := runA_exact_only sourceBData.positions sourceAData.positions AState.init hNoLoose
  have hst2 : compareState permutedA permutedB =
      { claimed := (permutedA.positions.filter (exactTierMatched permutedB.positions)).map
          getPositionMatchKey
        diffs := permutedA.positions.map (exactTierDiff permutedB.positions)
        positionsOnlyInA := permutedA.positions.countP
          (fun a => decide ((exactTierDiff permutedB.positions a).diffType = DiffType.removed))
        commonPositions := permutedA.positions.countP
          (fun a => decide ((exactTierDiff permutedB.positions a).diffType = DiffType.unchanged))
        changedPositions := permutedA.positions.countP
          (fun a => decide ((exactTierDiff permutedB.positions a).diffType = DiffType.changed)) } := by
    unfold compareState
    rw [hrun2]
    simp [AState.init]
  have hst1 : compareState sourceAData sourceBData =
      { claimed := (sourceAData.positions.filter (exactTierMatched sourceBData.positions)).map
          getPositionMatchKey
        diffs := sourceAData.positions.map (exactTierDiff sourceBData.positions)
        positionsOnlyInA := sourceAData.positions.countP
          (fun a => decide ((exactTierDiff sourceBData.positions a).diffType = DiffType.removed))
        commonPositions := sourceAData.positions.countP
          (fun a => decide ((exactTierDiff sourceBData.positions a).diffType = DiffType.unchanged))
        changedPositions := sourceAData.positions.countP
          (fun a => decide ((exactTierDiff sourceBData.positions a).diffType = DiffType.changed)) } := by
    unfold compareState
    rw [hrun1]
    simp [AState.init]
  have hdiffs_perm : (compareState permutedA permutedB).diffs.Perm
      (compareState sourceAData sourceBData).diffs := by
    rw [hst2, hst1]
    simp only
    rw [List.map_congr_left (fun a _ => hET a)]
    exact hA.map _
  have hclaimed_perm : (compareState permutedA permutedB).claimed.Perm
      (compareState sourceAData sourceBData).claimed := by
    rw [hst2, hst1]
    simp only
    rw [List.filter_congr (fun a _ => hEM a)]
    exact (hA.filter _).map _
  have hclaimed_mem : ∀ k, (k ∈ engineClaimed permutedA permutedB)
      ↔ (k ∈ engineClaimed sourceAData sourceBData) := by
    intro k
    exact hclaimed_perm.mem_iff
  have hadded_perm : (addedDiffsOf permutedA permutedB).Perm
      (addedDiffsOf sourceAData sourceBData) := by
    unfold addedDiffsOf
    refine List.Perm.map addedDiff ?_
    have hcongr : permutedB.positions.filter
        (fun posB => decide (getPositionMatchKey posB ∉ engineClaimed permutedA permutedB))
        = permutedB.positions.filter
        (fun posB => decide (getPositionMatchKey posB ∉ engineClaimed sourceAData sourceBData)) := by
      refine List.filter_congr ?_
      intro x _
      exact decide_eq_decide.mpr (not_congr (hclaimed_mem (getPositionMatchKey x)))
    rw [hcongr]
    exact hB.filter _
  constructor
  · rw [compareDataSources_positionDiffs, compareDataSources_positionDiffs]
    refine ((List.perm_insertionSort diffLe _).trans ?_).trans
      (List.perm_insertionSort diffLe _).symm
    exact hdiffs_perm.append hadded_perm
  · rw [compareDataSources_summary, compareDataSources_summary]
    have hcount : ∀ t : DiffType,
        permutedA.positions.countP
          (fun a => decide ((exactTierDiff permutedB.positions a).diffType = t))
        = sourceAData.positions.countP
          (fun a => decide ((exactTierDiff sourceBData.positions a).diffType = t)) := by
      intro t
      rw [List.countP_congr (fun a _ => by rw [hET a])]
      exact hA.countP_eq _
    have honlyA : (compareState permutedA permutedB).positionsOnlyInA
        = (compareState sourceAData sourceBData).positionsOnlyInA := by
      rw [hst2, hst1]
      exact hcount .removed
    have hcommon : (compareState permutedA permutedB).commonPositions
        = (compareState sourceAData sourceBData).commonPositions := by
      rw [hst2, hst1]
      exact hcount .unchanged
    have hchanged : (compareState permutedA permutedB).changedPositions
        = (compareState sourceAData sourceBData).changedPositions := by
      rw [hst2, hst1]
      exact hcount .changed
    have hlen : (addedDiffsOf permutedA permutedB).length
        = (addedDiffsOf sourceAData sourceBData).length := hadded_perm.length_eq
    rw [hAt, hBt, honlyA, hcommon, hchanged, hlen]

/-- Witness for C6 amended: simultaneous permutations of both sides of a
two-position fixture with only exact-tier activity. -/
theorem C6_permutation_invariance_witness :
    (invAperm.positions.Perm invA.positions
      ∧ invBperm.positions.Perm invB.positions
      ∧ (invB.positions.map getPositionMatchKey).Nodup)
    ∧ ((compareDataSources invAperm invBperm).positionDiffs.Perm
          (compareDataSources invA invB).positionDiffs
      ∧ (compareDataSources invAperm invBperm).summary
          = (compareDataSources invA invB).summary) := by
  have h1 : invAperm.positions.Perm invA.positions := by with_unfolding_all decide
  have h2 : invBperm.positions.Perm invB.positions := by with_unfolding_all decide
  have h3 : (invB.positions.map getPositionMatchKey).Nodup := by with_unfolding_all decide
  have h4 : ∀ a ∈ invA.positions,
      (buildExactIndex invB.positions (getPositionMatchKey a)).isSome = true
        ∨ buildLooseIndex invB.positions (getLooseMatchKey a) = [] := by
    with_unfolding_all decide
  exact ⟨⟨h1, h2, h3⟩,
    C6_permutation_invariance invA invB invAperm invBperm h1 h2 rfl rfl h3 h4⟩

end DefiCompare
